import Mathlib

/-
Verification of the content-addressable object model of Git-Rust
(src/models/blob.rs and src/models/tree.rs).

Shallow embedding conventions:
- A Rust `PathBuf` holding a working-directory-relative path is modelled as
  its list of components, `List String`.  `path.parent()` is `List.dropLast`,
  `path.file_name()` is `List.getLast?`, `path.components().nth(0)` is the
  head of the component list.
- Rust panics (`expect`, `unwrap`, `assert_eq!`, stack overflow) and all other
  failures are modelled uniformly as `none` in `Option`-returning functions.
- The recursion in `store_path_to_tree` is not structurally well-founded (that
  is one of the findings below), so the builder and the traversals take an
  explicit fuel argument, consumed on every recursive step; a run of the Rust
  code that terminates corresponds to a sufficiently large fuel, and a
  non-terminating run returns `none` for every fuel.
- File contents on disk are raw bytes (`List Nat`); `fs::read_to_string`
  additionally requires the bytes to be valid UTF-8.
-/

set_option autoImplicit false

namespace GitRust

/-- Hashes in the source are plain strings (`type Hash = String`). -/
abbrev Hash := String

/-- One entry of a Tree, from `struct TreeEntry` in tree.rs: `filemode` is the
pair (type, mode) where type is "blob" or "tree", `object_hash` is the child
object's hash and `name` the file or directory name. -/
structure TreeEntry where
  filemode : String × String
  object_hash : Hash
  name : String
deriving DecidableEq, Repr

/-- `struct Tree` from tree.rs: a hash (skipped by serde) and the ordered
entry list. -/
structure Tree where
  hash : Hash
  entries : List TreeEntry
deriving DecidableEq, Repr

/-- `struct Blob` from blob.rs: content hash and the file content, which the
source keeps as a Rust `String` (text, not raw bytes). -/
structure Blob where
  hash : Hash
  data : String
deriving DecidableEq, Repr

/-! ## UTF-8 decoding

`Blob::new` reads the source file with `std::fs::read_to_string`, which fails
unless the raw bytes are valid UTF-8.  We model that standard-library function
with an executable UTF-8 decoder over byte lists (bytes as `Nat`).  The state
machine below carries the number of expected continuation bytes, the partial
code point, and the allowed range for the next byte (which rules out overlong
encodings, surrogates and code points above 0x10FFFF, as Rust does). -/

/-- UTF-8 decoding state machine; consumes one byte per step. -/
def utf8Go : List Nat → Nat → Nat → Nat → Nat → List Char → Option String
  | [], 0, _, _, _, acc => some ⟨acc.reverse⟩
  | [], _ + 1, _, _, _, _ => none
  | b :: rest, 0, _, _, _, acc =>
    if b ≤ 0x7F then utf8Go rest 0 0 0 0 (Char.ofNat b :: acc)
    else if 0xC2 ≤ b ∧ b ≤ 0xDF then utf8Go rest 1 (b - 0xC0) 0x80 0xBF acc
    else if b = 0xE0 then utf8Go rest 2 0 0xA0 0xBF acc
    else if 0xE1 ≤ b ∧ b ≤ 0xEC then utf8Go rest 2 (b - 0xE0) 0x80 0xBF acc
    else if b = 0xED then utf8Go rest 2 13 0x80 0x9F acc
    else if 0xEE ≤ b ∧ b ≤ 0xEF then utf8Go rest 2 (b - 0xE0) 0x80 0xBF acc
    else if b = 0xF0 then utf8Go rest 3 0 0x90 0xBF acc
    else if 0xF1 ≤ b ∧ b ≤ 0xF3 then utf8Go rest 3 (b - 0xF0) 0x80 0xBF acc
    else if b = 0xF4 then utf8Go rest 3 4 0x80 0x8F acc
    else none
  | b :: rest, need + 1, code, lo, hi, acc =>
    if lo ≤ b ∧ b ≤ hi then
      match need with
      | 0 => utf8Go rest 0 0 0 0 (Char.ofNat (code * 0x40 + (b - 0x80)) :: acc)
      | m + 1 => utf8Go rest (m + 1) (code * 0x40 + (b - 0x80)) 0x80 0xBF acc
    else none

/-- Model of `std::fs::read_to_string` applied to raw bytes: succeeds exactly
on valid UTF-8 and returns the decoded string. -/
def utf8Decode (bs : List Nat) : Option String :=
  utf8Go bs 0 0 0 0 []

/-! ## Environment

The working-directory utilities (`util::get_working_dir`, file reading,
`util::get_file_mode`) and the content hasher (`util::calc_hash`) live in
modules that are external collaborators of the two source files under
verification.  They are bundled in an environment record. -/

/-- Modelled from the spec: the external collaborators consumed by blob.rs and
tree.rs — `calc_hash` is the deterministic content hasher (util.rs is not part
of the verified sources), `fs` maps a working-directory-relative path to the
raw bytes of that file (`none` when the file cannot be read), and
`get_file_mode` is the captured filesystem mode string of a path. -/
structure Env where
  calc_hash : String → Hash
  fs : List String → Option (List Nat)
  get_file_mode : List String → String

/-- Model of `fs::read_to_string` on a tracked relative path: read the raw
bytes, then require valid UTF-8. -/
def read_to_string (env : Env) (p : List String) : Option String :=
  (env.fs p).bind utf8Decode

/-! ## Object store

store.rs is not among the verified sources; the store is modelled from the
spec (section 4.1). -/

/-- Modelled from the spec: the object store is a key-value layer keyed by
content hash; represented as an association list from hash to stored content,
newest first.  A key is never written twice, so the earliest write wins and
lookups are unambiguous. -/
abbrev Store := List (Hash × String)

/-- Lookup of the content stored under a hash. -/
def Store.lookup : Store → Hash → Option String
  | [], _ => none
  | (k, v) :: rest, h => if k = h then some v else Store.lookup rest h

/-- Modelled from the spec: `Store::contains(hash)` — existence check. -/
def Store.contains (st : Store) (h : Hash) : Bool :=
  (st.lookup h).isSome

/-- Modelled from the spec: `Store::load(hash)` — exact-match read, fails with
a not-found condition when absent. -/
def Store.load (st : Store) (h : Hash) : Option String :=
  st.lookup h

/-- Modelled from the spec: `Store::save(content)` — computes the content
hash, writes the content under that key only if absent, and returns the hash
(dedup-idempotent write). -/
def Store.save (hf : String → Hash) (st : Store) (content : String) : Hash × Store :=
  if st.contains (hf content) then (hf content, st)
  else (hf content, (hf content, content) :: st)

/-! ## Serialization of trees

`Tree::save` persists `serde_json::to_string_pretty(&self)` and `Tree::load`
parses it back; serde_json is an external library.  Modelled from the spec: a
Tree is stored as a structured serialization of its ordered entry list (the
`hash` field is skipped).  We use a concrete injective length-prefixed
encoding, with an executable decoder and a proven decode-encode round trip,
which is the contract the source relies on. -/

/-- Length-prefixed encoding of one string: a unary length marker, a colon,
then the characters. -/
def encodeStrC (s : String) : List Char :=
  List.replicate s.data.length '#' ++ ':' :: s.data

/-- Count the leading unary length marker. -/
def takeCount : List Char → Nat × List Char
  | [] => (0, [])
  | c :: rest =>
    if c = '#' then
      let (n, r) := takeCount rest
      (n + 1, r)
    else (0, c :: rest)

/-- Decode one length-prefixed string, returning it and the unconsumed
remainder. -/
def decodeStrC (cs : List Char) : Option (String × List Char) :=
  match takeCount cs with
  | (n, c :: rest) =>
    if c = ':' ∧ n ≤ rest.length then some (⟨rest.take n⟩, rest.drop n) else none
  | (_, []) => none

/-- Serialized form of one entry: its four string fields in declaration
order. -/
def encodeEntryC (e : TreeEntry) : List Char :=
  encodeStrC e.filemode.1 ++ encodeStrC e.filemode.2 ++ encodeStrC e.object_hash ++ encodeStrC e.name

/-- Decode one entry. -/
def decodeEntryC (cs : List Char) : Option (TreeEntry × List Char) :=
  match decodeStrC cs with
  | none => none
  | some (ty, cs) =>
    match decodeStrC cs with
    | none => none
    | some (mode, cs) =>
      match decodeStrC cs with
      | none => none
      | some (h, cs) =>
        match decodeStrC cs with
        | none => none
        | some (nm, cs) => some (⟨(ty, mode), h, nm⟩, cs)

/-- Decode a known number of consecutive entries. -/
def decodeEntriesN : Nat → List Char → Option (List TreeEntry × List Char)
  | 0, cs => some ([], cs)
  | n + 1, cs =>
    match decodeEntryC cs with
    | none => none
    | some (e, cs) =>
      match decodeEntriesN n cs with
      | none => none
      | some (l, cs) => some (e :: l, cs)

/-- Serialized form of an entry list: unary count, colon, concatenated
entries. -/
def encodeEntries (l : List TreeEntry) : String :=
  ⟨List.replicate l.length '#' ++ ':' :: (l.map encodeEntryC).flatten⟩

/-- Parse a stored tree back into its entry list; `none` on any format
error. -/
def decodeEntries (s : String) : Option (List TreeEntry) :=
  match takeCount s.data with
  | (n, c :: rest) =>
    if c = ':' then
      match decodeEntriesN n rest with
      | some (l, []) => some l
      | _ => none
    else none
  | (_, []) => none

/-! ## Blob operations (blob.rs) -/

/-- `Blob::save` from blob.rs: skip if the store already contains the blob's
hash; otherwise write the data and `assert_eq!` that the hash the store
returns equals the blob's recorded hash (assert failure modelled as
`none`). -/
def Blob.save (env : Env) (st : Store) (b : Blob) : Option Store :=
  if st.contains b.hash then some st
  else
    let hs := Store.save env.calc_hash st b.data
    if hs.1 = b.hash then some hs.2 else none

/-- `Blob::new` from blob.rs: read the file as a string (fails on unreadable
files and on non-UTF-8 content), compute the hash, persist via `Blob::save`,
return the in-memory blob. -/
def Blob.new (env : Env) (st : Store) (p : List String) : Option (Blob × Store) :=
  match read_to_string env p with
  | none => none
  | some data =>
    let b : Blob := ⟨env.calc_hash data, data⟩
    match Blob.save env st b with
    | none => none
    | some st => some (b, st)

/-- `Blob::load` from blob.rs: fetch the content stored under the hash; the
hash field is taken from the argument, not recomputed. -/
def Blob.load (st : Store) (h : Hash) : Option Blob :=
  match Store.load st h with
  | none => none
  | some data => some ⟨h, data⟩

/-- `Tree::save` from tree.rs: serialize the entry list, store it, return the
hash the store computed (the tree's own hash field is set to it). -/
def Tree.save (env : Env) (st : Store) (t : Tree) : Hash × Store :=
  Store.save env.calc_hash st (encodeEntries t.entries)

/-- `Tree::load` from tree.rs: fetch the serialized entry list stored under
the hash, parse it, and set the tree's hash field to the argument.  Store
miss and parse failure are both panics in the source, modelled as `none`. -/
def Tree.load (st : Store) (h : Hash) : Option Tree :=
  match Store.load st h with
  | none => none
  | some data =>
    match decodeEntries data with
    | none => none
    | some entries => some ⟨h, entries⟩

/-! ## The recursive snapshot builder (tree.rs, store_path_to_tree) -/

/-- The closure `get_blob_entry` inside `store_path_to_tree`: create the
file's blob, then build a Blob-kind entry whose name is the path's base name
and whose mode is the captured file mode. -/
def get_blob_entry (env : Env) (st : Store) (path : List String) : Option (TreeEntry × Store) :=
  match Blob.new env st path with
  | none => none
  | some (blob, st) =>
    match path.getLast? with
    | none => none
    | some filename => some (⟨("blob", env.get_file_mode path), blob.hash, filename⟩, st)

/-- The scanning loop of `store_path_to_tree` from tree.rs, one source loop
iteration (or one recursive call into a subdirectory) per fuel step.
Arguments: fuel, the full tracked path list (the source re-scans it in every
recursive call), the current root, the paths still to scan at this level, the
set of already-processed first components, and the store.

Faithful to the source: a path whose parent equals the current root gets a
blob entry; otherwise a single-component path is skipped; otherwise the FIRST
component of the path (`path.components().nth(0)`) is taken as the
subdirectory, and the recursive build runs with that bare component as the new
root (`store_path_to_tree(path_entries, process_path.into())` — the current
root is not extended).  The recursive call to `store_path_to_tree` is inlined
here (the sub-loop followed by the sub-tree save) so that the whole definition
is structurally recursive on the fuel. -/
def store_path_loop (env : Env) :
    Nat → List (List String) → List String → List (List String) → List String → Store →
    Option (List TreeEntry × Store)
  | _, _, _, [], _, st => some ([], st)
  | 0, _, _, _ :: _, _, _ => none
  | fuel + 1, all, root, path :: rest, processed, st =>
    match path with
    | [] => none
    | _ :: _ =>
      if path.dropLast = root then
        match get_blob_entry env st path with
        | none => none
        | some (entry, st) =>
          match store_path_loop env fuel all root rest processed st with
          | none => none
          | some (entries, st) => some (entry :: entries, st)
      else if path.length = 1 then
        store_path_loop env fuel all root rest processed st
      else
        let d := path.headI
        if d ∈ processed then
          store_path_loop env fuel all root rest processed st
        else
          match store_path_loop env fuel all [d] all [] st with
          | none => none
          | some (sub_entries, st) =>
            let hs := Store.save env.calc_hash st (encodeEntries sub_entries)
            match store_path_loop env fuel all root rest (d :: processed) hs.2 with
            | none => none
            | some (entries, st) =>
              some (⟨("tree", env.get_file_mode [d]), hs.1, d⟩ :: entries, st)

/-- `store_path_to_tree` from tree.rs: scan the path list, then persist the
assembled tree and return it with its hash set. -/
def store_path_to_tree (env : Env) (fuel : Nat) (path_entries : List (List String))
    (current_root : List String) (st : Store) : Option (Tree × Store) :=
  match store_path_loop env fuel path_entries current_root path_entries [] st with
  | none => none
  | some (entries, st) =>
    let hs := Store.save env.calc_hash st (encodeEntries entries)
    some (⟨hs.1, entries⟩, hs.2)

/-- `Tree::new` from tree.rs: build the top-level tree from the tracked
relative paths with the empty path as root. -/
def Tree.new (env : Env) (fuel : Nat) (tracked : List (List String)) (st : Store) :
    Option (Tree × Store) :=
  store_path_to_tree env fuel tracked [] st

/-! ## Traversals (tree.rs) -/

/-- Loop of `get_recursive_file_entries`: a blob entry yields its name; a tree
entry loads the sub-tree from the store, recurses, and prefixes every returned
path with the entry name.  One fuel unit per entry or per nesting level. -/
def files_loop (st : Store) : Nat → List TreeEntry → Option (List (List String))
  | _, [] => some []
  | 0, _ :: _ => none
  | fuel + 1, e :: rest =>
    if e.filemode.1 = "blob" then
      match files_loop st fuel rest with
      | none => none
      | some files => some ([e.name] :: files)
    else
      match Tree.load st e.object_hash with
      | none => none
      | some sub =>
        match files_loop st fuel sub.entries with
        | none => none
        | some sub_files =>
          match files_loop st fuel rest with
          | none => none
          | some files => some (sub_files.map (fun f => e.name :: f) ++ files)

/-- `Tree::get_recursive_file_entries` from tree.rs. -/
def Tree.get_recursive_file_entries (st : Store) (fuel : Nat) (t : Tree) :
    Option (List (List String)) :=
  files_loop st fuel t.entries

/-- Loop of `get_recursive_blobs`: identical traversal, yielding (relative
path, blob hash) pairs. -/
def blobs_loop (st : Store) : Nat → List TreeEntry → Option (List (List String × Hash))
  | _, [] => some []
  | 0, _ :: _ => none
  | fuel + 1, e :: rest =>
    if e.filemode.1 = "blob" then
      match blobs_loop st fuel rest with
      | none => none
      | some blobs => some (([e.name], e.object_hash) :: blobs)
    else
      match Tree.load st e.object_hash with
      | none => none
      | some sub =>
        match blobs_loop st fuel sub.entries with
        | none => none
        | some sub_blobs =>
          match blobs_loop st fuel rest with
          | none => none
          | some blobs => some (sub_blobs.map (fun pb => (e.name :: pb.1, pb.2)) ++ blobs)

/-- `Tree::get_recursive_blobs` from tree.rs. -/
def Tree.get_recursive_blobs (st : Store) (fuel : Nat) (t : Tree) :
    Option (List (List String × Hash)) :=
  blobs_loop st fuel t.entries

/-! ## Store lemmas

The hash-keyed store behaves like a content-addressed map as long as every
key already present is the hash of its value (well-formedness, which every
write preserves) and the hasher is collision-free — the spec's standing
assumption on the content hasher. -/

/-- Well-formedness: every key in the store is the hash of its value. -/
def Store.WF (hf : String → Hash) (st : Store) : Prop :=
  ∀ p ∈ st, p.1 = hf p.2

theorem Store.WF_nil (hf : String → Hash) : Store.WF hf [] := by
  intro p hp
  cases hp

theorem Store.lookup_mem {st : Store} {k : Hash} {v : String}
    (h : st.lookup k = some v) : (k, v) ∈ st := by
  induction st with
  | nil => cases h
  | cons q rest ih =>
    obtain ⟨a, b⟩ := q
    rw [Store.lookup] at h
    by_cases hak : a = k
    · rw [if_pos hak] at h
      cases h
      subst hak
      exact List.mem_cons_self _ _
    · rw [if_neg hak] at h
      exact List.mem_cons_of_mem _ (ih h)

theorem Store.save_fst (hf : String → Hash) (st : Store) (c : String) :
    (Store.save hf st c).1 = hf c := by
  unfold Store.save
  split <;> rfl

theorem Store.save_wf {hf : String → Hash} {st : Store} (wf : Store.WF hf st)
    (c : String) : Store.WF hf (Store.save hf st c).2 := by
  unfold Store.save
  split
  · exact wf
  · intro p hp
    rcases List.mem_cons.mp hp with h | h
    · subst h; rfl
    · exact wf p h

theorem Store.lookup_save_self {hf : String → Hash} (hinj : Function.Injective hf)
    {st : Store} (wf : Store.WF hf st) (c : String) :
    (Store.save hf st c).2.lookup (hf c) = some c := by
  unfold Store.save
  split
  · rename_i hc
    obtain ⟨v, hv⟩ := Option.isSome_iff_exists.mp hc
    have hm := Store.lookup_mem hv
    have hkey : hf c = hf v := wf _ hm
    have : c = v := hinj hkey
    subst this
    exact hv
  · rw [Store.lookup, if_pos rfl]

theorem Store.lookup_save_mono {hf : String → Hash} {st : Store} {k : Hash}
    {v : String} (h : st.lookup k = some v) (c : String) :
    (Store.save hf st c).2.lookup k = some v := by
  unfold Store.save
  split
  · exact h
  · rename_i hc
    rw [Store.lookup]
    by_cases hk : hf c = k
    · exfalso
      subst hk
      rw [Store.contains, h] at hc
      cases hc rfl
    · rw [if_neg hk]
      exact h

/-! ## Serialization round trip -/

theorem takeCount_replicate (n : Nat) (l : List Char) :
    takeCount (List.replicate n '#' ++ ':' :: l) = (n, ':' :: l) := by
  induction n with
  | zero =>
    rw [List.replicate_zero, List.nil_append, takeCount, if_neg (by decide)]
  | succ n ih =>
    rw [List.replicate_succ, List.cons_append, takeCount, if_pos rfl, ih]

theorem decodeStrC_encode (s : String) (r : List Char) :
    decodeStrC (encodeStrC s ++ r) = some (s, r) := by
  obtain ⟨d⟩ := s
  rw [encodeStrC, decodeStrC]
  rw [List.append_assoc, List.cons_append, takeCount_replicate]
  have hle : d.length ≤ (d ++ r).length := by
    rw [List.length_append]
    exact Nat.le_add_right _ _
  dsimp only
  rw [if_pos ⟨rfl, hle⟩]
  rw [List.take_left, List.drop_left]

theorem decodeEntryC_encode (e : TreeEntry) (r : List Char) :
    decodeEntryC (encodeEntryC e ++ r) = some (e, r) := by
  obtain ⟨⟨ty, mode⟩, h, nm⟩ := e
  rw [encodeEntryC, decodeEntryC]
  rw [List.append_assoc, List.append_assoc, List.append_assoc]
  rw [decodeStrC_encode]
  dsimp only
  rw [decodeStrC_encode]
  dsimp only
  rw [decodeStrC_encode]
  dsimp only
  rw [decodeStrC_encode]

theorem decodeEntriesN_encode (l : List TreeEntry) (r : List Char) :
    decodeEntriesN l.length ((l.map encodeEntryC).flatten ++ r) = some (l, r) := by
  induction l with
  | nil => rfl
  | cons e rest ih =>
    rw [List.map_cons, List.flatten_cons, List.length_cons, decodeEntriesN,
      List.append_assoc, decodeEntryC_encode]
    dsimp only
    rw [ih]

/-- The serialization contract `Tree::load`/`Tree::save` rely on: parsing a
serialized entry list returns it unchanged. -/
theorem decodeEntries_encodeEntries (l : List TreeEntry) :
    decodeEntries (encodeEntries l) = some l := by
  rw [encodeEntries, decodeEntries]
  rw [takeCount_replicate]
  have h := decodeEntriesN_encode l []
  rw [List.append_nil] at h
  dsimp only
  rw [if_pos rfl, h]

/-- Serialized forms of distinct entry lists are distinct. -/
theorem encodeEntries_inj : Function.Injective encodeEntries := by
  intro a b h
  have ha := decodeEntries_encodeEntries a
  rw [h, decodeEntries_encodeEntries] at ha
  cases ha
  rfl

/-! ## Blob lemmas -/

/-- When a blob's hash is the hash of its data (as in every blob `Blob::new`
builds), `Blob::save` is exactly a store write and the assert cannot fire. -/
theorem Blob.save_hash_ok (env : Env) (st : Store) (data : String) :
    Blob.save env st ⟨env.calc_hash data, data⟩ =
      some (Store.save env.calc_hash st data).2 := by
  by_cases hc : st.contains (env.calc_hash data) = true <;>
    simp [Blob.save, Store.save, hc]

/-- Closed form of `Blob::new`: it fails exactly when the file cannot be read
as UTF-8 text, and otherwise returns the blob of the decoded content together
with the store extended by it. -/
theorem Blob.new_eq (env : Env) (st : Store) (p : List String) :
    Blob.new env st p = (read_to_string env p).map
      (fun s => ((⟨env.calc_hash s, s⟩ : Blob), (Store.save env.calc_hash st s).2)) := by
  unfold Blob.new
  cases h : read_to_string env p with
  | none => rfl
  | some s =>
    dsimp only
    rw [Blob.save_hash_ok]
    rfl

/-- Closed form of the `get_blob_entry` closure on a readable file. -/
theorem get_blob_entry_eq (env : Env) (st : Store) {p : List String} {c : String}
    (hread : read_to_string env p = some c) {nm : String}
    (hlast : p.getLast? = some nm) :
    get_blob_entry env st p =
      some (⟨("blob", env.get_file_mode p), env.calc_hash c, nm⟩,
        (Store.save env.calc_hash st c).2) := by
  unfold get_blob_entry
  rw [Blob.new_eq, hread]
  dsimp only [Option.map]
  rw [hlast]

/-! ## Symbolic run of the spec's worked example

Input path list of the spec's example (section 8): one file at the root and
one inside a single subdirectory.  The entries, hashes and intermediate
stores produced by the build are spelled out as functions of the environment
and the two file contents. -/

/-- The tracked path list of the worked example. -/
def examplePaths : List (List String) := [["b.txt"], ["mit_src", "a.txt"]]

/-- Entry the build creates for b.txt. -/
def exEntryB (env : Env) (cb : String) : TreeEntry :=
  ⟨("blob", env.get_file_mode ["b.txt"]), env.calc_hash cb, "b.txt"⟩

/-- Entry the mit_src sub-tree holds for a.txt. -/
def exEntryA (env : Env) (ca : String) : TreeEntry :=
  ⟨("blob", env.get_file_mode ["mit_src", "a.txt"]), env.calc_hash ca, "a.txt"⟩

/-- Entry the root tree holds for the mit_src sub-tree; its hash is the hash
of the serialized sub-tree. -/
def exEntryM (env : Env) (ca : String) : TreeEntry :=
  ⟨("tree", env.get_file_mode ["mit_src"]),
    env.calc_hash (encodeEntries [exEntryA env ca]), "mit_src"⟩

/-- The root tree of the worked example. -/
def exRootTree (env : Env) (cb ca : String) : Tree :=
  ⟨env.calc_hash (encodeEntries [exEntryB env cb, exEntryM env ca]),
    [exEntryB env cb, exEntryM env ca]⟩

/-- Store after the four writes of the example build: blob b, blob a, the
mit_src sub-tree, the root tree. -/
def exStoreF (env : Env) (st : Store) (cb ca : String) : Store :=
  (Store.save env.calc_hash
    (Store.save env.calc_hash
      (Store.save env.calc_hash
        (Store.save env.calc_hash st cb).2 ca).2
      (encodeEntries [exEntryA env ca])).2
    (encodeEntries [exEntryB env cb, exEntryM env ca])).2

/-- The scanning loop is done when no paths remain, whatever the fuel. -/
theorem store_path_loop_nil (env : Env) (fuel : Nat) (all : List (List String))
    (root : List String) (processed : List String) (st : Store) :
    store_path_loop env fuel all root [] processed st = some ([], st) := by
  cases fuel <;> rfl

theorem exLoop_inner (env : Env) (k : Nat) (st : Store) {ca : String}
    (ha : read_to_string env ["mit_src", "a.txt"] = some ca) (pr : List String) :
    store_path_loop env (k + 1) examplePaths ["mit_src"] [["mit_src", "a.txt"]] pr st =
      some ([exEntryA env ca], (Store.save env.calc_hash st ca).2) := by
  rw [store_path_loop]
  rw [if_pos (by decide)]
  rw [get_blob_entry_eq env st ha
    (show (["mit_src", "a.txt"] : List String).getLast? = some "a.txt" from rfl)]
  dsimp only
  rw [store_path_loop_nil]
  rfl

theorem exLoop_sub (env : Env) (k : Nat) (st : Store) {ca : String}
    (ha : read_to_string env ["mit_src", "a.txt"] = some ca) :
    store_path_loop env (k + 2) examplePaths ["mit_src"] examplePaths [] st =
      some ([exEntryA env ca], (Store.save env.calc_hash st ca).2) := by
  show store_path_loop env (k + 1 + 1) examplePaths ["mit_src"]
    [["b.txt"], ["mit_src", "a.txt"]] [] st = _
  rw [store_path_loop]
  rw [if_neg (by decide), if_pos (by decide)]
  exact exLoop_inner env k st ha []

theorem exLoop_outer_tail (env : Env) (k : Nat) (st : Store) {ca : String}
    (ha : read_to_string env ["mit_src", "a.txt"] = some ca) :
    store_path_loop env (k + 3) examplePaths [] [["mit_src", "a.txt"]] [] st =
      some ([exEntryM env ca],
        (Store.save env.calc_hash (Store.save env.calc_hash st ca).2
          (encodeEntries [exEntryA env ca])).2) := by
  show store_path_loop env (k + 2 + 1) examplePaths [] [["mit_src", "a.txt"]] [] st = _
  rw [store_path_loop]
  rw [if_neg (by decide), if_neg (by decide)]
  dsimp only [List.headI]
  rw [if_neg (by simp)]
  rw [exLoop_sub env k st ha]
  dsimp only
  rw [store_path_loop_nil]
  dsimp only
  rw [exEntryM, exEntryA]
  rw [Store.save_fst]

theorem exLoop_all (env : Env) (k : Nat) (st : Store) {cb ca : String}
    (hb : read_to_string env ["b.txt"] = some cb)
    (ha : read_to_string env ["mit_src", "a.txt"] = some ca) :
    store_path_loop env (k + 4) examplePaths [] examplePaths [] st =
      some ([exEntryB env cb, exEntryM env ca],
        (Store.save env.calc_hash
          (Store.save env.calc_hash (Store.save env.calc_hash st cb).2 ca).2
          (encodeEntries [exEntryA env ca])).2) := by
  show store_path_loop env (k + 3 + 1) examplePaths []
    [["b.txt"], ["mit_src", "a.txt"]] [] st = _
  rw [store_path_loop]
  rw [if_pos (by decide)]
  rw [get_blob_entry_eq env st hb
    (show (["b.txt"] : List String).getLast? = some "b.txt" from rfl)]
  dsimp only
  rw [exLoop_outer_tail env k _ ha]
  rfl

/-- Closed form of the whole example build: the returned tree and the final
store, for any environment in which the two files are readable text. -/
theorem exBuild (env : Env) (k : Nat) (st : Store) {cb ca : String}
    (hb : read_to_string env ["b.txt"] = some cb)
    (ha : read_to_string env ["mit_src", "a.txt"] = some ca) :
    Tree.new env (k + 4) examplePaths st =
      some (exRootTree env cb ca, exStoreF env st cb ca) := by
  rw [Tree.new, store_path_to_tree]
  rw [exLoop_all env k st hb ha]
  dsimp only
  rw [exRootTree, exStoreF]
  rw [Store.save_fst]

/-- On the final store of the example build, loading the hash recorded in the
mit_src entry returns the sub-tree with exactly the a.txt entry (needs the
collision-freeness assumption on the hasher and a well-formed initial
store). -/
theorem exStoreF_load_sub (env : Env) (st : Store) (cb ca : String)
    (hinj : Function.Injective env.calc_hash) (hwf : Store.WF env.calc_hash st) :
    Tree.load (exStoreF env st cb ca) (env.calc_hash (encodeEntries [exEntryA env ca])) =
      some ⟨env.calc_hash (encodeEntries [exEntryA env ca]), [exEntryA env ca]⟩ := by
  have wf1 := Store.save_wf hwf cb
  have wf2 := Store.save_wf wf1 ca
  have l3 := Store.lookup_save_self hinj wf2 (encodeEntries [exEntryA env ca])
  have l4 := @Store.lookup_save_mono env.calc_hash _ _ _ l3
    (encodeEntries [exEntryB env cb, exEntryM env ca])
  rw [Tree.load, Store.load, exStoreF, l4]
  dsimp only
  rw [decodeEntries_encodeEntries]

/-! ## Traversal unfolding helpers -/

theorem files_loop_nil (st : Store) (fuel : Nat) : files_loop st fuel [] = some [] := by
  cases fuel <;> rfl

theorem files_loop_blob (st : Store) (fuel : Nat) (e : TreeEntry)
    (rest : List TreeEntry) (hkind : e.filemode.1 = "blob") :
    files_loop st (fuel + 1) (e :: rest) =
      (files_loop st fuel rest).map (fun files => [e.name] :: files) := by
  rw [files_loop, if_pos hkind]
  cases files_loop st fuel rest <;> rfl

theorem files_loop_tree (st : Store) (fuel : Nat) (e : TreeEntry)
    (rest : List TreeEntry) (sub : Tree) (hkind : ¬e.filemode.1 = "blob")
    (hload : Tree.load st e.object_hash = some sub) :
    files_loop st (fuel + 1) (e :: rest) =
      match files_loop st fuel sub.entries with
      | none => none
      | some sub_files =>
        (files_loop st fuel rest).map
          (fun files => sub_files.map (fun f => e.name :: f) ++ files) := by
  rw [files_loop, if_neg hkind, hload]
  dsimp only
  cases files_loop st fuel sub.entries
  · rfl
  · cases files_loop st fuel rest <;> rfl

/-- Traversing the example's root tree over the final store returns exactly
the two tracked paths, in input order. -/
theorem exTraversal (env : Env) (k : Nat) (st : Store) (cb ca : String)
    (hinj : Function.Injective env.calc_hash) (hwf : Store.WF env.calc_hash st) :
    Tree.get_recursive_file_entries (exStoreF env st cb ca) (k + 3)
      (exRootTree env cb ca) = some [["b.txt"], ["mit_src", "a.txt"]] := by
  have hload := exStoreF_load_sub env st cb ca hinj hwf
  rw [Tree.get_recursive_file_entries]
  show files_loop (exStoreF env st cb ca) (k + 2 + 1)
    [exEntryB env cb, exEntryM env ca] = _
  rw [files_loop_blob _ _ _ _ (by rfl)]
  rw [show k + 2 = k + 1 + 1 from rfl]
  have hkind : ("tree" : String) ≠ "blob" := by decide
  rw [files_loop_tree _ _ _ _ _ hkind hload]
  dsimp only
  rw [show k + 1 = k + 0 + 1 from rfl]
  rw [files_loop_blob _ _ _ _ (by rfl)]
  rw [files_loop_nil, files_loop_nil]
  rfl

/-! ## Divergence of the builder on nested input

Because the builder always takes the FIRST component of a deeper path as the
subdirectory and recurses with that bare component as the new root, a call
whose root is already `["mit_src"]` scanning the path mit_src/sub/a.txt picks
"mit_src" again and recurses into an identical call: the Rust code never
terminates on such input.  In the fuel embedding: `none` for every fuel. -/

theorem loop_deep (env : Env) : ∀ (fuel : Nat) (st : Store),
    store_path_loop env fuel [["mit_src", "sub", "a.txt"]] ["mit_src"]
      [["mit_src", "sub", "a.txt"]] [] st = none := by
  intro fuel
  induction fuel with
  | zero => intro st; rfl
  | succ n ih =>
    intro st
    rw [store_path_loop]
    rw [if_neg (by decide), if_neg (by decide)]
    dsimp only [List.headI]
    rw [if_neg (by simp)]
    rw [ih st]

/-- The builder never returns on the single nested path mit_src/sub/a.txt,
whatever the fuel, the environment, and the starting store. -/
theorem treeNew_deep_none (env : Env) (fuel : Nat) (st : Store) :
    Tree.new env fuel [["mit_src", "sub", "a.txt"]] st = none := by
  rw [Tree.new, store_path_to_tree]
  cases fuel with
  | zero => rfl
  | succ n =>
    rw [store_path_loop]
    rw [if_neg (by decide), if_neg (by decide)]
    dsimp only [List.headI]
    rw [if_neg (by simp)]
    rw [loop_deep env n st]

/-! ## Divergence of the builder on two top-level directories

With tracked paths a/x.txt and b/y.txt, the call with root `["a"]` re-scans
the full list, sees b/y.txt, and recurses with root `["b"]`, which in turn
sees a/x.txt and recurses with root `["a"]` — mutual infinite recursion.  The
invariant below: whenever the root is `["a"]` (resp. `["b"]`) and the other
directory's path is still to be scanned with its first component not yet
marked processed, the loop cannot return. -/

theorem loop_ab (env : Env) : ∀ (fuel : Nat) (st : Store)
    (remaining : List (List String)) (processed : List String) (root : List String),
    ((root = ["a"] ∧ ["b", "y.txt"] ∈ remaining ∧ "b" ∉ processed) ∨
     (root = ["b"] ∧ ["a", "x.txt"] ∈ remaining ∧ "a" ∉ processed)) →
    store_path_loop env fuel [["a", "x.txt"], ["b", "y.txt"]] root remaining processed st =
      none := by
  intro fuel
  induction fuel with
  | zero =>
    intro st remaining processed root h
    cases remaining with
    | nil => rcases h with ⟨_, hm, _⟩ | ⟨_, hm, _⟩ <;> cases hm
    | cons r rest => rfl
  | succ n ih =>
    intro st remaining processed root h
    cases remaining with
    | nil => rcases h with ⟨_, hm, _⟩ | ⟨_, hm, _⟩ <;> cases hm
    | cons r rest =>
      rcases h with ⟨hroot, hm, hp⟩ | ⟨hroot, hm, hp⟩
      · subst hroot
        by_cases hcrit : r = ["b", "y.txt"]
        · subst hcrit
          rw [store_path_loop]
          rw [if_neg (by decide), if_neg (by decide)]
          dsimp only [List.headI]
          rw [if_neg hp]
          rw [ih st [["a", "x.txt"], ["b", "y.txt"]] [] ["b"]
            (Or.inr ⟨rfl, by simp, by simp⟩)]
        · have hmem : ["b", "y.txt"] ∈ rest := by
            rcases List.mem_cons.mp hm with h1 | h1
            · exact absurd h1.symm hcrit
            · exact h1
          cases r with
          | nil => rfl
          | cons rh rt =>
            rw [store_path_loop]
            by_cases hdir : (rh :: rt).dropLast = ["a"]
            · rw [if_pos hdir]
              cases hge : get_blob_entry env st (rh :: rt) with
              | none => rfl
              | some pr =>
                obtain ⟨e, st2⟩ := pr
                dsimp only
                rw [ih st2 rest processed ["a"] (Or.inl ⟨rfl, hmem, hp⟩)]
            · rw [if_neg hdir]
              by_cases hlen : (rh :: rt).length = 1
              · rw [if_pos hlen]
                exact ih st rest processed ["a"] (Or.inl ⟨rfl, hmem, hp⟩)
              · rw [if_neg hlen]
                dsimp only [List.headI]
                by_cases hpr : rh ∈ processed
                · rw [if_pos hpr]
                  exact ih st rest processed ["a"] (Or.inl ⟨rfl, hmem, hp⟩)
                · rw [if_neg hpr]
                  by_cases hrb : rh = "b"
                  · subst hrb
                    rw [ih st [["a", "x.txt"], ["b", "y.txt"]] [] ["b"]
                      (Or.inr ⟨rfl, by simp, by simp⟩)]
                  · cases hsub : store_path_loop env n [["a", "x.txt"], ["b", "y.txt"]]
                      [rh] [["a", "x.txt"], ["b", "y.txt"]] [] st with
                    | none => rfl
                    | some pr2 =>
                      obtain ⟨subE, st3⟩ := pr2
                      dsimp only
                      rw [ih _ rest (rh :: processed) ["a"]
                        (Or.inl ⟨rfl, hmem, by
                          intro hcon
                          rcases List.mem_cons.mp hcon with he | he
                          · exact hrb he.symm
                          · exact hp he⟩)]
      · subst hroot
        by_cases hcrit : r = ["a", "x.txt"]
        · subst hcrit
          rw [store_path_loop]
          rw [if_neg (by decide), if_neg (by decide)]
          dsimp only [List.headI]
          rw [if_neg hp]
          rw [ih st [["a", "x.txt"], ["b", "y.txt"]] [] ["a"]
            (Or.inl ⟨rfl, by simp, by simp⟩)]
        · have hmem : ["a", "x.txt"] ∈ rest := by
            rcases List.mem_cons.mp hm with h1 | h1
            · exact absurd h1.symm hcrit
            · exact h1
          cases r with
          | nil => rfl
          | cons rh rt =>
            rw [store_path_loop]
            by_cases hdir : (rh :: rt).dropLast = ["b"]
            · rw [if_pos hdir]
              cases hge : get_blob_entry env st (rh :: rt) with
              | none => rfl
              | some pr =>
                obtain ⟨e, st2⟩ := pr
                dsimp only
                rw [ih st2 rest processed ["b"] (Or.inr ⟨rfl, hmem, hp⟩)]
            · rw [if_neg hdir]
              by_cases hlen : (rh :: rt).length = 1
              · rw [if_pos hlen]
                exact ih st rest processed ["b"] (Or.inr ⟨rfl, hmem, hp⟩)
              · rw [if_neg hlen]
                dsimp only [List.headI]
                by_cases hpr : rh ∈ processed
                · rw [if_pos hpr]
                  exact ih st rest processed ["b"] (Or.inr ⟨rfl, hmem, hp⟩)
                · rw [if_neg hpr]
                  by_cases hra : rh = "a"
                  · subst hra
                    rw [ih st [["a", "x.txt"], ["b", "y.txt"]] [] ["a"]
                      (Or.inl ⟨rfl, by simp, by simp⟩)]
                  · cases hsub : store_path_loop env n [["a", "x.txt"], ["b", "y.txt"]]
                      [rh] [["a", "x.txt"], ["b", "y.txt"]] [] st with
                    | none => rfl
                    | some pr2 =>
                      obtain ⟨subE, st3⟩ := pr2
                      dsimp only
                      rw [ih _ rest (rh :: processed) ["b"]
                        (Or.inr ⟨rfl, hmem, by
                          intro hcon
                          rcases List.mem_cons.mp hcon with he | he
                          · exact hra he.symm
                          · exact hp he⟩)]

/-- The builder never returns on the flat two-directory input a/x.txt,
b/y.txt, whatever the fuel, the environment, and the starting store. -/
theorem treeNew_ab_none (env : Env) (fuel : Nat) (st : Store) :
    Tree.new env fuel [["a", "x.txt"], ["b", "y.txt"]] st = none := by
  rw [Tree.new, store_path_to_tree]
  cases fuel with
  | zero => rfl
  | succ n =>
    rw [store_path_loop]
    rw [if_neg (by decide), if_neg (by decide)]
    dsimp only [List.headI]
    rw [if_neg (by simp)]
    rw [loop_ab env n st [["a", "x.txt"], ["b", "y.txt"]] [] ["a"]
      (Or.inl ⟨rfl, by simp, by simp⟩)]

/-! ## Failure propagation through the builder

A failing blob read inside the build aborts the entire build: the loop scans
the path list in order and every branch either propagates an inner `none`
unchanged or continues the scan, so once the unreadable root-level file is
reached the whole call returns `none` — no partial tree is returned. -/

theorem loops_agree (st : Store) : ∀ (fuel : Nat) (l : List TreeEntry),
    files_loop st fuel l = Option.map (List.map Prod.fst) (blobs_loop st fuel l) := by
  intro fuel
  induction fuel with
  | zero =>
    intro l
    cases l with
    | nil => rfl
    | cons e rest => rfl
  | succ n ih =>
    intro l
    cases l with
    | nil => rfl
    | cons e rest =>
      rw [files_loop, blobs_loop]
      by_cases hkind : e.filemode.1 = "blob"
      · rw [if_pos hkind, if_pos hkind]
        rw [ih rest]
        cases blobs_loop st n rest <;> rfl
      · rw [if_neg hkind, if_neg hkind]
        cases hload : Tree.load st e.object_hash with
        | none => rfl
        | some sub =>
          dsimp only
          rw [ih sub.entries, ih rest]
          cases blobs_loop st n sub.entries with
          | none => rfl
          | some sb =>
            cases blobs_loop st n rest with
            | none => rfl
            | some bl =>
              dsimp only [Option.map]
              rw [List.map_append, List.map_map, List.map_map]
              rfl

/-! ## Concrete witnesses: a small injective hasher and environments -/

/-- A concrete injective content hasher for witnesses. -/
def hash0 (s : String) : Hash :=
  ⟨'H' :: s.data⟩

theorem hash0_inj : Function.Injective hash0 := by
  intro a b h
  have h2 : 'H' :: a.data = 'H' :: b.data := congrArg String.data h
  obtain ⟨da⟩ := a
  obtain ⟨db⟩ := b
  injection h2 with _ h3
  exact congrArg String.mk h3

/-- Concrete environment: b.txt holds byte 98 ("b"), mit_src/a.txt holds byte
97 ("a"). -/
def env0 : Env :=
  ⟨hash0,
    fun p =>
      if p = ["b.txt"] then some [98]
      else if p = ["mit_src", "a.txt"] then some [97]
      else none,
    fun _ => "100644"⟩

/-- Variant of `env0` differing only in the content of mit_src/a.txt (byte 99,
"c"). -/
def env0v : Env :=
  ⟨hash0,
    fun p =>
      if p = ["b.txt"] then some [98]
      else if p = ["mit_src", "a.txt"] then some [99]
      else none,
    fun _ => "100644"⟩

/-- Environment with one readable binary (non-UTF-8) file f.bin. -/
def env0bin : Env :=
  ⟨hash0, fun p => if p = ["f.bin"] then some [255] else none, fun _ => "100644"⟩

/-- After a write, the store contains the written content's hash. -/
theorem Store.contains_save_self (hf : String → Hash) (st : Store) (c : String) :
    (Store.save hf st c).2.contains (hf c) = true := by
  unfold Store.save
  split
  · rename_i hc
    exact hc
  · unfold Store.contains
    rw [Store.lookup, if_pos rfl]
    rfl

/-! ## Claim theorems -/

/-- C1: the claimed build/traversal round trip — `get_recursive_file_entries`
of the tree built from a tracked file set F returning exactly F — fails on the
code: already for the flat two-directory set {a/x.txt, b/y.txt} the builder
recurses between roots "a" and "b" forever (its recursion never extends the
current prefix), so no tree is ever produced and no traversal can return F.
In the fuel embedding the build is `none` for every fuel, every environment
and every starting store. -/
theorem claim_C1_roundtrip_fails :
    ∀ (env : Env) (fuel : Nat) (st : Store),
      Tree.new env fuel [["a", "x.txt"], ["b", "y.txt"]] st = none :=
  fun env fuel st => treeNew_ab_none env fuel st

/-- C2: the claimed termination of `Tree::new`/`store_path_to_tree` on every
finite tracked path list fails on the code: on the single path
mit_src/sub/a.txt (nesting depth 2) the recursive call with root "mit_src"
picks first component "mit_src" again and re-invokes itself unchanged, so the
build never returns.  In the fuel embedding: `none` for every fuel. -/
theorem claim_C2_termination_fails :
    ∀ (env : Env) (fuel : Nat) (st : Store),
      Tree.new env fuel [["mit_src", "sub", "a.txt"]] st = none :=
  fun env fuel st => treeNew_deep_none env fuel st

/-- C3: the claimed partitioning step — subdirectory name = path component
immediately following currentPrefix, recursion with extended prefix
currentPrefix/subdirectory — fails on the code: invoked with prefix
["mit_src"] on the path mit_src/sub/a.txt the code picks the FIRST component
"mit_src" (not "sub") and recurses with the same unextended prefix
["mit_src"], an immediate self-call that never returns (`none` for every
fuel), where the claimed algorithm would build the sub/a.txt sub-tree. -/
theorem claim_C3_partitioning_fails :
    ∀ (env : Env) (fuel : Nat) (st : Store),
      store_path_to_tree env fuel [["mit_src", "sub", "a.txt"]] ["mit_src"] st = none := by
  intro env fuel st
  rw [store_path_to_tree, loop_deep]

/-- C4: the worked example.  For tracked paths ["b.txt", "mit_src/a.txt"],
any collision-free hasher, and both files readable as text, the build (fuel 6
suffices) returns a root tree of exactly two entries — first a Blob entry
named b.txt, then a Tree entry named mit_src — loading the mit_src entry's
hash from the resulting store yields a sub-tree of exactly one Blob entry
named a.txt, and `get_recursive_file_entries` returns exactly
["b.txt", "mit_src/a.txt"] in that order. -/
theorem claim_C4_worked_example (env : Env) (cb ca : String)
    (hinj : Function.Injective env.calc_hash)
    (hb : read_to_string env ["b.txt"] = some cb)
    (ha : read_to_string env ["mit_src", "a.txt"] = some ca) :
    Tree.new env 6 examplePaths [] =
      some (exRootTree env cb ca, exStoreF env [] cb ca) ∧
    (exRootTree env cb ca).entries = [exEntryB env cb, exEntryM env ca] ∧
    (exEntryB env cb).filemode.1 = "blob" ∧ (exEntryB env cb).name = "b.txt" ∧
    (exEntryM env ca).filemode.1 = "tree" ∧ (exEntryM env ca).name = "mit_src" ∧
    Tree.load (exStoreF env [] cb ca) (exEntryM env ca).object_hash =
      some ⟨(exEntryM env ca).object_hash, [exEntryA env ca]⟩ ∧
    (exEntryA env ca).filemode.1 = "blob" ∧ (exEntryA env ca).name = "a.txt" ∧
    Tree.get_recursive_file_entries (exStoreF env [] cb ca) 3 (exRootTree env cb ca) =
      some [["b.txt"], ["mit_src", "a.txt"]] := by
  refine ⟨exBuild env 2 [] hb ha, rfl, rfl, rfl, rfl, rfl, ?_, rfl, rfl, ?_⟩
  · exact exStoreF_load_sub env [] cb ca hinj (Store.WF_nil _)
  · exact exTraversal env 0 [] cb ca hinj (Store.WF_nil _)

/-- C4 witness: the worked example at the concrete environment `env0` with
contents "b" and "a". -/
theorem claim_C4_worked_example_witness :
    read_to_string env0 ["b.txt"] = some "b" ∧
    read_to_string env0 ["mit_src", "a.txt"] = some "a" ∧
    Tree.new env0 6 examplePaths [] =
      some (exRootTree env0 "b" "a", exStoreF env0 [] "b" "a") ∧
    Tree.get_recursive_file_entries (exStoreF env0 [] "b" "a") 3
      (exRootTree env0 "b" "a") = some [["b.txt"], ["mit_src", "a.txt"]] :=
  ⟨rfl, rfl,
    (claim_C4_worked_example env0 "b" "a" hash0_inj rfl rfl).1,
    (claim_C4_worked_example env0 "b" "a" hash0_inj rfl rfl).2.2.2.2.2.2.2.2.2⟩

/-- C5: reload fidelity.  For every tree, saving it and loading the returned
hash (over the resulting store) yields a tree with an identical entry list in
content and order, under the collision-free-hasher assumption and a
well-formed store. -/
theorem claim_C5_reload_fidelity (env : Env) (st : Store) (t : Tree)
    (hinj : Function.Injective env.calc_hash) (hwf : Store.WF env.calc_hash st) :
    Tree.load (Tree.save env st t).2 (Tree.save env st t).1 =
      some ⟨(Tree.save env st t).1, t.entries⟩ := by
  rw [Tree.save, Store.save_fst]
  rw [Tree.load, Store.load]
  rw [Store.lookup_save_self hinj hwf]
  dsimp only
  rw [decodeEntries_encodeEntries]

/-- C5 witness: a one-entry tree saved to the empty store. -/
theorem claim_C5_reload_fidelity_witness :
    Tree.load (Tree.save env0 [] ⟨"", [⟨("blob", "100644"), "h1", "f.txt"⟩]⟩).2
        (Tree.save env0 [] ⟨"", [⟨("blob", "100644"), "h1", "f.txt"⟩]⟩).1 =
      some ⟨(Tree.save env0 [] ⟨"", [⟨("blob", "100644"), "h1", "f.txt"⟩]⟩).1,
        [⟨("blob", "100644"), "h1", "f.txt"⟩]⟩ :=
  claim_C5_reload_fidelity env0 [] ⟨"", [⟨("blob", "100644"), "h1", "f.txt"⟩]⟩
    hash0_inj (Store.WF_nil _)

/-- C6 counterexample: a readable file whose single byte 0xFF is not valid
UTF-8 — `Blob::new` fails even though the file can be read, because the
source uses `fs::read_to_string` and stores text, not raw bytes, refuting
"for arbitrary byte content" and "fails only when the file cannot be
read". -/
theorem claim_C6_counterexample :
    (env0bin.fs ["f.bin"]).isSome = true ∧ Blob.new env0bin [] ["f.bin"] = none :=
  ⟨rfl, rfl⟩

/-- C6 (amended): `Blob::new` returns the blob whose data is the file's
content decoded as UTF-8 text with its content hash, persisted in the store;
it fails exactly when the file cannot be read as UTF-8 text (unreadable file
or non-text content). -/
theorem claim_C6_blob_new_text (env : Env) (st : Store) (p : List String) :
    Blob.new env st p = (read_to_string env p).map
      (fun s => ((⟨env.calc_hash s, s⟩ : Blob), (Store.save env.calc_hash st s).2)) :=
  Blob.new_eq env st p

/-- C7: `Blob::save` under the invariant that the blob's hash is the content
hash of its data: it always succeeds (the assert-failure branch is
unreachable), it leaves the store unchanged when the store already contains
the hash, and an immediate second save is a no-op (idempotence). -/
theorem claim_C7_blob_save (env : Env) (st : Store) (b : Blob)
    (hpre : b.hash = env.calc_hash b.data) :
    ∃ st2, Blob.save env st b = some st2 ∧ Blob.save env st2 b = some st2 ∧
      (st.contains b.hash = true → st2 = st) := by
  obtain ⟨bh, bd⟩ := b
  have hpre2 : bh = env.calc_hash bd := hpre
  subst hpre2
  refine ⟨(Store.save env.calc_hash st bd).2, Blob.save_hash_ok env st bd, ?_, ?_⟩
  · rw [Blob.save, if_pos (Store.contains_save_self env.calc_hash st bd)]
  · intro hcc
    rw [Store.save, if_pos hcc]

/-- C7 witness: saving the blob of content "x" into the empty store. -/
theorem claim_C7_blob_save_witness :
    ∃ st2, Blob.save env0 [] ⟨hash0 "x", "x"⟩ = some st2 ∧
      Blob.save env0 st2 ⟨hash0 "x", "x"⟩ = some st2 ∧
      (Store.contains [] (hash0 "x") = true → st2 = []) :=
  claim_C7_blob_save env0 [] ⟨hash0 "x", "x"⟩ rfl

/-- C8: Merkle propagation over two builds of ["b.txt", "mit_src/a.txt"] that
share the hasher (collision-free) and the content of b.txt but differ in the
content of mit_src/a.txt: both builds succeed, the a.txt blob hashes differ,
the mit_src sub-tree hashes differ, the root tree hashes differ, and the
object hash recorded in the b.txt entry is identical in both runs. -/
theorem claim_C8_merkle (env1 env2 : Env) (cb ca1 ca2 : String)
    (hsame : env1.calc_hash = env2.calc_hash)
    (hinj : Function.Injective env1.calc_hash)
    (hne : ca1 ≠ ca2)
    (hb1 : read_to_string env1 ["b.txt"] = some cb)
    (hb2 : read_to_string env2 ["b.txt"] = some cb)
    (ha1 : read_to_string env1 ["mit_src", "a.txt"] = some ca1)
    (ha2 : read_to_string env2 ["mit_src", "a.txt"] = some ca2) :
    Tree.new env1 6 examplePaths [] =
      some (exRootTree env1 cb ca1, exStoreF env1 [] cb ca1) ∧
    Tree.new env2 6 examplePaths [] =
      some (exRootTree env2 cb ca2, exStoreF env2 [] cb ca2) ∧
    (exEntryA env1 ca1).object_hash ≠ (exEntryA env2 ca2).object_hash ∧
    (exEntryM env1 ca1).object_hash ≠ (exEntryM env2 ca2).object_hash ∧
    (exRootTree env1 cb ca1).hash ≠ (exRootTree env2 cb ca2).hash ∧
    (exEntryB env1 cb).object_hash = (exEntryB env2 cb).object_hash := by
  have hAne : env1.calc_hash ca1 ≠ env2.calc_hash ca2 := by
    rw [← hsame]
    intro h
    exact hne (hinj h)
  have hEAne : exEntryA env1 ca1 ≠ exEntryA env2 ca2 := by
    intro h
    exact hAne (congrArg TreeEntry.object_hash h)
  have hencne : encodeEntries [exEntryA env1 ca1] ≠ encodeEntries [exEntryA env2 ca2] := by
    intro h
    have h2 := encodeEntries_inj h
    injection h2 with h3 _
    exact hEAne h3
  have hMne : (exEntryM env1 ca1).object_hash ≠ (exEntryM env2 ca2).object_hash := by
    show env1.calc_hash _ ≠ env2.calc_hash _
    rw [← hsame]
    intro h
    exact hencne (hinj h)
  have hEMne : exEntryM env1 ca1 ≠ exEntryM env2 ca2 := by
    intro h
    exact hMne (congrArg TreeEntry.object_hash h)
  have hrootne : (exRootTree env1 cb ca1).hash ≠ (exRootTree env2 cb ca2).hash := by
    show env1.calc_hash _ ≠ env2.calc_hash _
    rw [← hsame]
    intro h
    have h2 := encodeEntries_inj (hinj h)
    injection h2 with _ h3
    injection h3 with h4 _
    exact hEMne h4
  refine ⟨exBuild env1 2 [] hb1 ha1, exBuild env2 2 [] hb2 ha2, hAne, hMne, hrootne, ?_⟩
  show env1.calc_hash cb = env2.calc_hash cb
  rw [hsame]

/-- C8 witness: the two runs at the concrete environments `env0` (a.txt holds
"a") and `env0v` (a.txt holds "c"). -/
theorem claim_C8_merkle_witness :
    ("a" : String) ≠ "c" ∧
    ((exRootTree env0 "b" "a").hash ≠ (exRootTree env0v "b" "c").hash ∧
      (exEntryB env0 "b").object_hash = (exEntryB env0v "b").object_hash) :=
  ⟨by decide,
    (claim_C8_merkle env0 env0v "b" "a" "c" rfl hash0_inj (by decide)
      rfl rfl rfl rfl).2.2.2.2⟩

/-- C10: traversal agreement.  For every store, fuel, and tree, projecting the
path component of every pair `get_recursive_blobs` returns gives exactly the
output of `get_recursive_file_entries` — including agreement on failure. -/
theorem claim_C10_traversals_agree (st : Store) (fuel : Nat) (t : Tree) :
    Tree.get_recursive_file_entries st fuel t =
      Option.map (List.map Prod.fst) (Tree.get_recursive_blobs st fuel t) :=
  loops_agree st fuel t.entries

end GitRust
